import Mathlib

/-
Verification development for the 5-stage pipeline simulator
(src/pipeline_simulation/main_fixed51.cpp).  The decoder and the hazard
scheduler are embedded as executable Lean definitions, and the documented
properties are proved about them.
-/

namespace PipelineSim

/-- The whitespace set of PipelineSimulator::trim, which searches for
characters outside the literal set space, tab, CR, LF. -/
def isWS (c : Char) : Bool := c = ' ' || c = '\t' || c = '\r' || c = '\n'

/-- C-locale isspace, the delimiter set of istringstream token extraction:
space, tab, CR, LF, and also vertical tab (11) and form feed (12). -/
def isStreamWS (c : Char) : Bool :=
  c = ' ' || c = '\t' || c = '\r' || c = '\n' || c = Char.ofNat 11 || c = Char.ofNat 12

/-- PipelineSimulator::trim - drop leading and trailing whitespace. -/
def trimChars (cs : List Char) : List Char :=
  ((cs.dropWhile isWS).reverse.dropWhile isWS).reverse

/-- std::string::find(c, from 0) - index of the first occurrence of a character. -/
def findCharFrom (cs : List Char) (target : Char) : Option Nat :=
  match cs with
  | [] => none
  | c :: rest => if c = target then some 0 else (findCharFrom rest target).map (· + 1)

/-- One step of istringstream token extraction - splits a character list into
maximal runs of non-whitespace characters (C-locale isspace delimiters),
accumulating the current token reversed. -/
def tokenizeAux : List Char → List Char → List (List Char)
  | [], acc => if acc = [] then [] else [acc.reverse]
  | c :: cs, acc =>
    if isStreamWS c then
      if acc = [] then tokenizeAux cs [] else acc.reverse :: tokenizeAux cs []
    else tokenizeAux cs (c :: acc)

/-- The whitespace-delimited tokens of a character list (iss >> token loop). -/
def tokenize (cs : List Char) : List (List Char) := tokenizeAux cs []

/-- The per-token comma strip in parseAddSub: if token.back is a comma, pop it. -/
def popComma (tok : List Char) : List Char :=
  if tok.getLast? = some ',' then tok.dropLast else tok

/-- Instruction::Type. -/
inductive IType
  | LOAD
  | STORE
  | ADD
  | SUB
deriving DecidableEq, Repr

/-- struct Instruction of main_fixed51.cpp, with the stage-cycle fields the
scheduler fills in.  Cycles are C++ ints that stay non-negative, so Nat. -/
structure Instruction where
  type : IType
  destReg : String := ""
  src1Reg : String := ""
  src2Reg : String := ""
  memLoc : String := ""
  isImmediate1 : Bool := false
  isImmediate2 : Bool := false
  ifCycle : Nat := 0
  idCycle : Nat := 0
  exCycle : Nat := 0
  memCycle : Nat := 0
  wbCycle : Nat := 0
  stalled : Bool := false
deriving DecidableEq, Repr

instance : Inhabited Instruction := ⟨{ type := IType.ADD }⟩

/-- PipelineSimulator::parseLoadStore.  Mirrors the C++ exactly: trim, find the
first space, take the mnemonic, find the comma at or after the space, split the
register and the memory location, trimming each piece. -/
def parseLoadStore (line : String) : Option Instruction :=
  let t := trimChars line.data
  if t = [] then none else
  match findCharFrom t ' ' with
  | none => none
  | some typeEnd =>
    let ty := t.take typeEnd
    if ty ≠ ("LOAD").data ∧ ty ≠ ("STORE").data then none else
    match findCharFrom (t.drop typeEnd) ',' with
    | none => none
    | some k =>
      let reg : String := ⟨trimChars ((t.drop typeEnd).take k)⟩
      let mem : String := ⟨trimChars (t.drop (typeEnd + k + 1))⟩
      if ty = ("LOAD").data then
        some { type := IType.LOAD, destReg := reg, memLoc := mem }
      else
        some { type := IType.STORE, src1Reg := reg, memLoc := mem }

/-- PipelineSimulator::parseAddSub.  Tokenizes on whitespace, strips one
trailing comma from each token, requires at least four tokens, and classifies
each source operand as a register iff its first character (null for an empty
token, as in C++) is the register letter. -/
def parseAddSub (line : String) : Option Instruction :=
  let t := trimChars line.data
  if t = [] then none else
  let tokens := (tokenize t).map popComma
  if tokens.length < 4 then none else
  let t0 := tokens.getD 0 []
  if t0 ≠ ("ADD").data ∧ t0 ≠ ("SUB").data then none else
  let tk2 := tokens.getD 2 []
  let tk3 := tokens.getD 3 []
  some { type := if t0 = ("ADD").data then IType.ADD else IType.SUB,
         destReg := ⟨tokens.getD 1 []⟩,
         src1Reg := if tk2.headD (Char.ofNat 0) = 'R' then ⟨tk2⟩ else ⟨[]⟩,
         isImmediate1 := !(tk2.headD (Char.ofNat 0) == 'R'),
         src2Reg := if tk3.headD (Char.ofNat 0) = 'R' then ⟨tk3⟩ else ⟨[]⟩,
         isImmediate2 := !(tk3.headD (Char.ofNat 0) == 'R') }

/-- PipelineSimulator::addInstruction - skip empty lines, try the two parsers,
drop the line when both fail. -/
def addInstruction (insts : List Instruction) (line : String) : List Instruction :=
  let t := trimChars line.data
  if t = [] then insts else
  match parseLoadStore ⟨t⟩ with
  | some i => insts ++ [i]
  | none =>
    match parseAddSub ⟨t⟩ with
    | some i => insts ++ [i]
    | none => insts

/-- The decode loop of main: feed each input line to addInstruction in order. -/
def decodeLines (lines : List String) : List Instruction :=
  lines.foldl addInstruction []

/-- Memory operations, as tested throughout checkDependencies and simulate. -/
def isMemOp (i : Instruction) : Prop := i.type = IType.LOAD ∨ i.type = IType.STORE

instance (i : Instruction) : Decidable (isMemOp i) :=
  inferInstanceAs (Decidable (i.type = IType.LOAD ∨ i.type = IType.STORE))

/-- ALU operations (ADD/SUB), as tested by the dependent-ALU penalty. -/
def isALUOp (i : Instruction) : Prop := i.type = IType.ADD ∨ i.type = IType.SUB

instance (i : Instruction) : Decidable (isALUOp i) :=
  inferInstanceAs (Decidable (i.type = IType.ADD ∨ i.type = IType.SUB))

/-- The register-read test of checkDependencies and of the dependent-ALU
penalty: curr reads a non-immediate source operand equal to prev.destReg. -/
def regReadFrom (prev curr : Instruction) : Prop :=
  (curr.isImmediate1 = false ∧ curr.src1Reg = prev.destReg) ∨
  (curr.isImmediate2 = false ∧ curr.src2Reg = prev.destReg)

instance (prev curr : Instruction) : Decidable (regReadFrom prev curr) :=
  inferInstanceAs (Decidable
    ((curr.isImmediate1 = false ∧ curr.src1Reg = prev.destReg) ∨
     (curr.isImmediate2 = false ∧ curr.src2Reg = prev.destReg)))

/-- Data availability by producer type: WB for LOAD, MEM for ADD/SUB and
(irrelevantly, since STORE has no destination) MEM for STORE. -/
def dataAvailableCycle (prev : Instruction) : Nat :=
  match prev.type with
  | IType.LOAD => prev.wbCycle
  | IType.ADD => prev.memCycle
  | IType.SUB => prev.memCycle
  | IType.STORE => prev.memCycle

/-- The RAW branch of checkDependencies blocks the given ID cycle. -/
def rawBlocked (prev curr : Instruction) (cycle : Nat) : Prop :=
  prev.destReg ≠ "" ∧ regReadFrom prev curr ∧ cycle ≤ dataAvailableCycle prev

instance (prev curr : Instruction) (cycle : Nat) : Decidable (rawBlocked prev curr cycle) :=
  inferInstanceAs (Decidable
    (prev.destReg ≠ "" ∧ regReadFrom prev curr ∧ cycle ≤ dataAvailableCycle prev))

/-- The WAR branch of checkDependencies blocks the given ID cycle. -/
def warBlocked (prev curr : Instruction) (cycle : Nat) : Prop :=
  curr.destReg ≠ "" ∧
  ((prev.isImmediate1 = false ∧ curr.destReg = prev.src1Reg) ∨
   (prev.isImmediate2 = false ∧ curr.destReg = prev.src2Reg)) ∧
  cycle ≤ prev.idCycle

instance (prev curr : Instruction) (cycle : Nat) : Decidable (warBlocked prev curr cycle) :=
  inferInstanceAs (Decidable
    (curr.destReg ≠ "" ∧
     ((prev.isImmediate1 = false ∧ curr.destReg = prev.src1Reg) ∨
      (prev.isImmediate2 = false ∧ curr.destReg = prev.src2Reg)) ∧
     cycle ≤ prev.idCycle))

/-- The WAW branch of checkDependencies blocks the given ID cycle. -/
def wawBlocked (prev curr : Instruction) (cycle : Nat) : Prop :=
  curr.destReg ≠ "" ∧ curr.destReg = prev.destReg ∧ cycle ≤ prev.wbCycle

instance (prev curr : Instruction) (cycle : Nat) : Decidable (wawBlocked prev curr cycle) :=
  inferInstanceAs (Decidable
    (curr.destReg ≠ "" ∧ curr.destReg = prev.destReg ∧ cycle ≤ prev.wbCycle))

/-- The same-location memory branch of checkDependencies blocks the ID cycle. -/
def memBlocked (prev curr : Instruction) (cycle : Nat) : Prop :=
  isMemOp curr ∧ isMemOp prev ∧ curr.memLoc = prev.memLoc ∧ cycle ≤ prev.memCycle

instance (prev curr : Instruction) (cycle : Nat) : Decidable (memBlocked prev curr cycle) :=
  inferInstanceAs (Decidable
    (isMemOp curr ∧ isMemOp prev ∧ curr.memLoc = prev.memLoc ∧ cycle ≤ prev.memCycle))

/-- The memory-unit structural branch of checkDependencies blocks the ID cycle. -/
def structBlocked (prev curr : Instruction) (cycle : Nat) : Prop :=
  isMemOp curr ∧ isMemOp prev ∧ cycle + 2 = prev.memCycle

instance (prev curr : Instruction) (cycle : Nat) : Decidable (structBlocked prev curr cycle) :=
  inferInstanceAs (Decidable (isMemOp curr ∧ isMemOp prev ∧ cycle + 2 = prev.memCycle))

/-- One earlier instruction vetoes the candidate ID cycle (any of the five
branches of checkDependencies fires). -/
def hazardBlocked (prev curr : Instruction) (cycle : Nat) : Prop :=
  rawBlocked prev curr cycle ∨ warBlocked prev curr cycle ∨ wawBlocked prev curr cycle ∨
  memBlocked prev curr cycle ∨ structBlocked prev curr cycle

instance (prev curr : Instruction) (cycle : Nat) : Decidable (hazardBlocked prev curr cycle) :=
  inferInstanceAs (Decidable
    (rawBlocked prev curr cycle ∨ warBlocked prev curr cycle ∨ wawBlocked prev curr cycle ∨
     memBlocked prev curr cycle ∨ structBlocked prev curr cycle))

/-- PipelineSimulator::checkDependencies - the candidate ID cycle passes every
hazard branch against every earlier (already scheduled) instruction. -/
def checkDependencies (done : List Instruction) (curr : Instruction) (cycle : Nat) : Prop :=
  ∀ prev ∈ done, ¬ hazardBlocked prev curr cycle

instance (done : List Instruction) (curr : Instruction) (cycle : Nat) :
    Decidable (checkDependencies done curr cycle) :=
  inferInstanceAs (Decidable (∀ prev ∈ done, ¬ hazardBlocked prev curr cycle))

/-- An upper bound on every cycle threshold a scheduled front can impose:
past it, no hazard branch can fire, so the C++ stall loop must exit. -/
def hazardBound (done : List Instruction) : Nat :=
  done.foldr (fun p acc => max (max p.wbCycle (max p.memCycle p.idCycle)) acc) 0

/-- The stall loop of simulate with an explicit fuel argument; fuel is chosen
so the loop always finds a passing cycle before exhausting it. -/
def findOk (done : List Instruction) (curr : Instruction) : Nat → Nat → Nat
  | 0, cycle => cycle
  | fuel + 1, cycle =>
    if checkDependencies done curr cycle then cycle else findOk done curr fuel (cycle + 1)

/-- The first cycle at or after the given one at which checkDependencies
passes - the exit value of the while-loop on curr.idCycle. -/
def findOkCycle (done : List Instruction) (curr : Instruction) (cycle : Nat) : Nat :=
  findOk done curr (hazardBound done + 1 - cycle) cycle

/-- Baseline schedule of the first instruction: IF=1 ID=2 EX=3 MEM=4, WB=6 for
LOAD and 5 otherwise. -/
def schedFirst (c : Instruction) : Instruction :=
  { c with ifCycle := 1, idCycle := 2, exCycle := 3, memCycle := 4,
           wbCycle := if c.type = IType.LOAD then 6 else 5 }

/-- The fixed-penalty shift: add k cycles to all five stage cycles. -/
def shiftBy (i : Instruction) (k : Nat) : Instruction :=
  { i with ifCycle := i.ifCycle + k, idCycle := i.idCycle + k, exCycle := i.exCycle + k,
           memCycle := i.memCycle + k, wbCycle := i.wbCycle + k }

/-- Condition of the +1 memory-operation penalty: current and the immediately
preceding instruction are both memory operations. -/
def memPenalty (prev curr : Instruction) : Prop := isMemOp curr ∧ isMemOp prev

instance (prev curr : Instruction) : Decidable (memPenalty prev curr) :=
  inferInstanceAs (Decidable (isMemOp curr ∧ isMemOp prev))

/-- Condition of the +2 dependent-ALU penalty: both ADD/SUB and the current
instruction reads the predecessors destination register. -/
def aluPenalty (prev curr : Instruction) : Prop :=
  isALUOp curr ∧ isALUOp prev ∧ regReadFrom prev curr

instance (prev curr : Instruction) : Decidable (aluPenalty prev curr) :=
  inferInstanceAs (Decidable (isALUOp curr ∧ isALUOp prev ∧ regReadFrom prev curr))

/-- The body of the scheduling loop of simulate for one instruction at index
at least 1: start ID at prev.IF + 2 (the C++ keeps ifCycle and idCycle moving
together, so ifCycle is always idCycle - 1), run the stall loop, lay out
EX/MEM/WB from the final ID, then apply the two fixed penalties. -/
def scheduleOne (done : List Instruction) (prev curr : Instruction) : Instruction :=
  let baseId := prev.ifCycle + 2
  let idC := findOkCycle done curr baseId
  let scheduled : Instruction :=
    { curr with ifCycle := idC - 1, idCycle := idC, exCycle := idC + 1, memCycle := idC + 2,
                wbCycle := idC + 2 + (if curr.type = IType.LOAD then 2 else 1),
                stalled := curr.stalled || decide (idC ≠ baseId) }
  let afterMem := if memPenalty prev curr then shiftBy scheduled 1 else scheduled
  if aluPenalty prev curr then shiftBy afterMem 2 else afterMem

/-- The main loop of simulate over the instructions after the first; done is
the already scheduled front and prev its last element. -/
def scheduleRest (done : List Instruction) (prev : Instruction) :
    List Instruction → List Instruction
  | [] => done
  | c :: cs => scheduleRest (done ++ [scheduleOne done prev c]) (scheduleOne done prev c) cs

/-- The full schedule computed by PipelineSimulator::simulate. -/
def scheduleList : List Instruction → List Instruction
  | [] => []
  | c :: cs => scheduleRest [schedFirst c] (schedFirst c) cs

/-- The return value of simulate: the maximum WB cycle over the schedule,
starting the running maximum at 0 (hence 0 for the empty list). -/
def simulate (insts : List Instruction) : Nat :=
  (scheduleList insts).foldl (fun m i => max m i.wbCycle) 0

/-- The end-to-end run of main on already-read input lines: decode each line,
then simulate. -/
def runPipeline (lines : List String) : Nat := simulate (decodeLines lines)

/-- Structural shape every finalized instruction satisfies: stages one cycle
apart starting at IF, and the MEM-to-WB offset fixed by the opcode. -/
def wfInst (i : Instruction) : Prop :=
  1 ≤ i.ifCycle ∧ i.idCycle = i.ifCycle + 1 ∧ i.exCycle = i.idCycle + 1 ∧
  i.memCycle = i.exCycle + 1 ∧ i.wbCycle = i.memCycle + (if i.type = IType.LOAD then 2 else 1)

/-- Concrete two-load example program used by several witnesses. -/
def exLoadA : Instruction := { type := IType.LOAD, destReg := "R1", memLoc := "A" }

/-- Second concrete load, distinct destination and memory location. -/
def exLoadB : Instruction := { type := IType.LOAD, destReg := "R2", memLoc := "B" }

/-- Concrete independent ADD used by witnesses. -/
def exAdd1 : Instruction :=
  { type := IType.ADD, destReg := "R1", src1Reg := "R2", src2Reg := "R3" }

/-- Second concrete ADD, independent of the first. -/
def exAdd2 : Instruction :=
  { type := IType.ADD, destReg := "R4", src1Reg := "R5", src2Reg := "R6" }

/-- The two-line program of the specification scenario. -/
def exProg : List String := ["LOAD R1, 0", "ADD R2, R1, R3"]

/-- Helper: getD into the left part of an append. -/
theorem getD_append_low {α : Type} (a b : List α) (j : Nat) (d : α) (h : j < a.length) :
    (a ++ b).getD j d = a.getD j d := by
  induction a generalizing j with
  | nil => simp at h
  | cons x xs ih =>
    cases j with
    | zero => simp
    | succ j =>
      simp only [List.cons_append, List.getD_cons_succ]
      exact ih j (by simpa using h)

/-- Helper: getD into the right part of an append. -/
theorem getD_append_right {α : Type} (a b : List α) (j : Nat) (d : α) :
    (a ++ b).getD (a.length + j) d = b.getD j d := by
  induction a with
  | nil => simp
  | cons x xs ih =>
    have hidx : xs.length + 1 + j = (xs.length + j) + 1 := by omega
    simp only [List.cons_append, List.length_cons, hidx, List.getD_cons_succ]
    exact ih

/-- Helper: take of an append, cut inside the left part. -/
theorem take_append_low {α : Type} (a b : List α) (n : Nat) (h : n ≤ a.length) :
    (a ++ b).take n = a.take n := by
  induction a generalizing n with
  | nil =>
    have hn : n = 0 := by simpa using h
    subst hn; simp
  | cons x xs ih =>
    cases n with
    | zero => simp
    | succ n =>
      simp only [List.cons_append, List.take_succ_cons]
      rw [ih n (by simpa using h)]

/-- Helper: getD commutes with take below the cut. -/
theorem take_getD {α : Type} (l : List α) (j i : Nat) (d : α) (h : i < j) :
    (l.take j).getD i d = l.getD i d := by
  induction l generalizing i j with
  | nil => simp
  | cons x xs ih =>
    cases j with
    | zero => omega
    | succ j =>
      cases i with
      | zero => simp
      | succ i =>
        simp only [List.take_succ_cons, List.getD_cons_succ]
        exact ih j i (by omega)

/-- Helper: a getD at a valid index is a member. -/
theorem getD_mem {α : Type} (l : List α) (j : Nat) (d : α) (h : j < l.length) :
    l.getD j d ∈ l := by
  induction l generalizing j with
  | nil => simp at h
  | cons x xs ih =>
    cases j with
    | zero => simp
    | succ j => simpa using Or.inr (ih j (by simpa using h))

/-- Helper: every member is a getD at a valid index. -/
theorem mem_getD {α : Type} (l : List α) (x : α) (hx : x ∈ l) :
    ∃ j, j < l.length ∧ ∀ d, l.getD j d = x := by
  induction l with
  | nil => simp at hx
  | cons y ys ih =>
    rcases List.mem_cons.mp hx with h | h
    · exact ⟨0, by simp, fun d => by simp [h]⟩
    · obtain ⟨j, hj, hget⟩ := ih h
      exact ⟨j + 1, by simpa using hj, fun d => by simpa using hget d⟩

/-- Helper: getLast? of a list extended on the right. -/
theorem getLastQ_concat {α : Type} (l : List α) (x : α) : (l ++ [x]).getLast? = some x := by
  induction l with
  | nil => rfl
  | cons y ys ih =>
    cases ys with
    | nil => rfl
    | cons z zs =>
      simp only [List.getLast?] at ih ⊢
      exact ih

/-- Helper: getLast? determines getD at the last index. -/
theorem getD_of_getLastQ {α : Type} (l : List α) (x : α) (d : α)
    (h : l.getLast? = some x) : l.getD (l.length - 1) d = x := by
  induction l with
  | nil => simp [List.getLast?] at h
  | cons y ys ih =>
    cases ys with
    | nil =>
      simp [List.getLast?] at h
      simp [h]
    | cons z zs =>
      have h2 : (z :: zs).getLast? = some x := by
        simp only [List.getLast?] at h ⊢
        exact h
      have := ih h2
      simpa [List.length_cons] using this

/-- Every scheduled instruction in the front has its wb, mem and id cycles
below hazardBound of the front. -/
theorem hazardBound_spec (done : List Instruction) (p : Instruction) (hp : p ∈ done) :
    p.wbCycle ≤ hazardBound done ∧ p.memCycle ≤ hazardBound done ∧
      p.idCycle ≤ hazardBound done := by
  induction done with
  | nil => simp at hp
  | cons q qs ih =>
    rcases List.mem_cons.mp hp with h | h
    · subst h
      simp only [hazardBound, List.foldr_cons]
      omega
    · have := ih h
      simp only [hazardBound, List.foldr_cons] at *
      omega

/-- Past the hazard bound no branch of checkDependencies can fire. -/
theorem checkDependencies_of_big (done : List Instruction) (curr : Instruction) (cycle : Nat)
    (h : hazardBound done < cycle) : checkDependencies done curr cycle := by
  intro prev hmem hblk
  have hb := hazardBound_spec done prev hmem
  have havail : dataAvailableCycle prev ≤ hazardBound done := by
    unfold dataAvailableCycle
    rcases prev with ⟨ty, _, _, _, _, _, _, _, _, _, _, _, _⟩
    cases ty <;> simp_all
  rcases hblk with hr | hw | hww | hm | hs
  · rcases hr with ⟨-, -, hc⟩; omega
  · rcases hw with ⟨-, -, hc⟩; omega
  · rcases hww with ⟨-, -, hc⟩; omega
  · rcases hm with ⟨-, -, -, hc⟩; omega
  · rcases hs with ⟨-, -, hc⟩; omega

/-- The fueled stall loop never moves the cycle backwards. -/
theorem findOk_ge (done : List Instruction) (curr : Instruction) :
    ∀ fuel cycle, cycle ≤ findOk done curr fuel cycle := by
  intro fuel
  induction fuel with
  | zero => intro cycle; simp [findOk]
  | succ fuel ih =>
    intro cycle
    unfold findOk
    split
    · exact Nat.le_refl _
    · exact Nat.le_trans (Nat.le_succ _) (ih (cycle + 1))

/-- With enough fuel, the stall loop exits at a cycle that passes every check. -/
theorem findOk_ok (done : List Instruction) (curr : Instruction) :
    ∀ fuel cycle, hazardBound done < cycle + fuel →
      checkDependencies done curr (findOk done curr fuel cycle) := by
  intro fuel
  induction fuel with
  | zero =>
    intro cycle h
    simpa [findOk] using checkDependencies_of_big done curr cycle (by omega)
  | succ fuel ih =>
    intro cycle h
    unfold findOk
    split
    · assumption
    · exact ih (cycle + 1) (by omega)

/-- The exit value of the stall loop passes every hazard check. -/
theorem findOkCycle_ok (done : List Instruction) (curr : Instruction) (cycle : Nat) :
    checkDependencies done curr (findOkCycle done curr cycle) := by
  unfold findOkCycle
  exact findOk_ok done curr _ cycle (by omega)

/-- The exit value of the stall loop is at or after the starting cycle. -/
theorem findOkCycle_ge (done : List Instruction) (curr : Instruction) (cycle : Nat) :
    cycle ≤ findOkCycle done curr cycle :=
  findOk_ge done curr _ cycle

/-- If the starting cycle already passes, the loop does not run. -/
theorem findOkCycle_of_ok (done : List Instruction) (curr : Instruction) (cycle : Nat)
    (h : checkDependencies done curr cycle) : findOkCycle done curr cycle = cycle := by
  unfold findOkCycle
  cases hazardBound done + 1 - cycle with
  | zero => rfl
  | succ fuel => simp [findOk, h]

/-- The loop runs (exit differs from start) exactly when the starting cycle
fails some hazard check. -/
theorem findOkCycle_ne_iff (done : List Instruction) (curr : Instruction) (cycle : Nat) :
    findOkCycle done curr cycle ≠ cycle ↔ ¬ checkDependencies done curr cycle := by
  constructor
  · intro hne hok
    exact hne (findOkCycle_of_ok done curr cycle hok)
  · intro hbad heq
    exact hbad (heq ▸ findOkCycle_ok done curr cycle)

/-- scheduleOne preserves every decoded (non-cycle) field and records the
stall flag of the hazard loop; the fixed penalties do not touch the flag. -/
theorem scheduleOne_fields (done : List Instruction) (prev curr : Instruction) :
    (scheduleOne done prev curr).type = curr.type ∧
    (scheduleOne done prev curr).destReg = curr.destReg ∧
    (scheduleOne done prev curr).src1Reg = curr.src1Reg ∧
    (scheduleOne done prev curr).src2Reg = curr.src2Reg ∧
    (scheduleOne done prev curr).memLoc = curr.memLoc ∧
    (scheduleOne done prev curr).isImmediate1 = curr.isImmediate1 ∧
    (scheduleOne done prev curr).isImmediate2 = curr.isImmediate2 ∧
    (scheduleOne done prev curr).stalled =
      (curr.stalled ||
        decide (findOkCycle done curr (prev.ifCycle + 2) ≠ prev.ifCycle + 2)) := by
  unfold scheduleOne
  by_cases hm : memPenalty prev curr <;> by_cases ha : aluPenalty prev curr <;>
    simp [hm, ha, shiftBy]

/-- The stage-cycle layout of scheduleOne: final ID is the loop exit plus a
penalty shift k, and the other stages follow at unit offsets. -/
theorem scheduleOne_spec (done : List Instruction) (prev curr : Instruction) :
    ∃ k : Nat,
      (memPenalty prev curr → 1 ≤ k) ∧
      (¬ memPenalty prev curr → ¬ aluPenalty prev curr → k = 0) ∧
      (scheduleOne done prev curr).idCycle =
        findOkCycle done curr (prev.ifCycle + 2) + k ∧
      (scheduleOne done prev curr).ifCycle + 1 = (scheduleOne done prev curr).idCycle ∧
      (scheduleOne done prev curr).exCycle = (scheduleOne done prev curr).idCycle + 1 ∧
      (scheduleOne done prev curr).memCycle = (scheduleOne done prev curr).idCycle + 2 ∧
      (scheduleOne done prev curr).wbCycle =
        (scheduleOne done prev curr).memCycle + (if curr.type = IType.LOAD then 2 else 1) := by
  have hge : prev.ifCycle + 2 ≤ findOkCycle done curr (prev.ifCycle + 2) :=
    findOkCycle_ge done curr (prev.ifCycle + 2)
  unfold scheduleOne
  by_cases hm : memPenalty prev curr <;> by_cases ha : aluPenalty prev curr
  · exact ⟨3, fun _ => by omega, fun h _ => absurd hm h, by simp [hm, ha, shiftBy]; omega⟩
  · exact ⟨1, fun _ => by omega, fun h _ => absurd hm h, by simp [hm, ha, shiftBy]; omega⟩
  · exact ⟨2, fun h => absurd h hm, fun _ h => absurd ha h, by simp [hm, ha, shiftBy]; omega⟩
  · exact ⟨0, fun h => absurd h hm, fun _ _ => rfl, by simp [hm, ha, shiftBy]; omega⟩

/-- schedFirst preserves every decoded field (including the stall flag) and
fixes the baseline stage cycles. -/
theorem schedFirst_spec (c : Instruction) :
    (schedFirst c).type = c.type ∧
    (schedFirst c).destReg = c.destReg ∧
    (schedFirst c).src1Reg = c.src1Reg ∧
    (schedFirst c).src2Reg = c.src2Reg ∧
    (schedFirst c).memLoc = c.memLoc ∧
    (schedFirst c).isImmediate1 = c.isImmediate1 ∧
    (schedFirst c).isImmediate2 = c.isImmediate2 ∧
    (schedFirst c).stalled = c.stalled ∧
    (schedFirst c).ifCycle = 1 ∧ (schedFirst c).idCycle = 2 ∧
    (schedFirst c).exCycle = 3 ∧ (schedFirst c).memCycle = 4 ∧
    (schedFirst c).wbCycle = (if c.type = IType.LOAD then 6 else 5) := by
  simp [schedFirst]

/-- The first scheduled instruction is well formed. -/
theorem schedFirst_wf (c : Instruction) : wfInst (schedFirst c) := by
  unfold wfInst schedFirst
  by_cases h : c.type = IType.LOAD <;> simp [h]

/-- Every instruction scheduled by scheduleOne is well formed. -/
theorem scheduleOne_wf (done : List Instruction) (prev curr : Instruction) :
    wfInst (scheduleOne done prev curr) := by
  obtain ⟨k, -, -, hid, hif, hex, hmem, hwb⟩ := scheduleOne_spec done prev curr
  obtain ⟨hty, -⟩ := scheduleOne_fields done prev curr
  have hge : prev.ifCycle + 2 ≤ findOkCycle done curr (prev.ifCycle + 2) :=
    findOkCycle_ge done curr (prev.ifCycle + 2)
  refine ⟨by omega, by omega, by omega, by omega, ?_⟩
  rw [hty, hwb]

/-- The scheduling loop adds one output per remaining instruction. -/
theorem scheduleRest_length (rest : List Instruction) :
    ∀ (done : List Instruction) (prev : Instruction),
      (scheduleRest done prev rest).length = done.length + rest.length := by
  induction rest with
  | nil => intro done prev; simp [scheduleRest]
  | cons c cs ih =>
    intro done prev
    unfold scheduleRest
    rw [ih]
    simp
    omega

/-- The scheduling loop only appends: the already scheduled front stays. -/
theorem scheduleRest_extends (rest : List Instruction) :
    ∀ (done : List Instruction) (prev : Instruction),
      ∃ ext, scheduleRest done prev rest = done ++ ext := by
  induction rest with
  | nil => intro done prev; exact ⟨[], by simp [scheduleRest]⟩
  | cons c cs ih =>
    intro done prev
    obtain ⟨ext, hext⟩ := ih (done ++ [scheduleOne done prev c]) (scheduleOne done prev c)
    exact ⟨scheduleOne done prev c :: ext, by simp [scheduleRest, hext]⟩

/-- Entries of the already scheduled front are unchanged by the loop. -/
theorem scheduleRest_getD_low (rest done : List Instruction) (prev d : Instruction)
    (j : Nat) (hj : j < done.length) :
    (scheduleRest done prev rest).getD j d = done.getD j d := by
  obtain ⟨ext, hext⟩ := scheduleRest_extends rest done prev
  rw [hext]
  exact getD_append_low done ext j d hj

/-- Taking the front length out of the loop result recovers the front. -/
theorem scheduleRest_take (rest done : List Instruction) (prev : Instruction) :
    (scheduleRest done prev rest).take done.length = done := by
  obtain ⟨ext, hext⟩ := scheduleRest_extends rest done prev
  rw [hext, take_append_low done ext done.length (Nat.le_refl _), List.take_length]

/-- Each output of the loop body is scheduleOne applied to the schedule built
so far and to the corresponding input instruction. -/
theorem scheduleRest_step (rest : List Instruction) :
    ∀ (done : List Instruction) (prev d : Instruction) (k : Nat),
      done ≠ [] → done.getLast? = some prev → k < rest.length →
      (scheduleRest done prev rest).getD (done.length + k) d =
        scheduleOne ((scheduleRest done prev rest).take (done.length + k))
          ((scheduleRest done prev rest).getD (done.length + k - 1) d)
          (rest.getD k d) := by
  induction rest with
  | nil => intro done prev d k _ _ hk; simp at hk
  | cons c cs ih =>
    intro done prev d k hne hlast hk
    have hdlen : 1 ≤ done.length := by
      cases done with
      | nil => exact absurd rfl hne
      | cons a as => simp
    have hred : scheduleRest done prev (c :: cs) =
        scheduleRest (done ++ [scheduleOne done prev c]) (scheduleOne done prev c) cs := rfl
    rw [hred]
    cases k with
    | zero =>
      have hlen : done.length + 0 < (done ++ [scheduleOne done prev c]).length := by
        simp
      rw [scheduleRest_getD_low cs (done ++ [scheduleOne done prev c])
        (scheduleOne done prev c) d (done.length + 0) hlen]
      have hval : (done ++ [scheduleOne done prev c]).getD (done.length + 0) d =
          scheduleOne done prev c := by
        simp
      rw [hval]
      have htake : (scheduleRest (done ++ [scheduleOne done prev c])
          (scheduleOne done prev c) cs).take (done.length + 0) = done := by
        obtain ⟨ext, hext⟩ :=
          scheduleRest_extends cs (done ++ [scheduleOne done prev c]) (scheduleOne done prev c)
        rw [hext, List.append_assoc]
        simp
      have hprevval : (scheduleRest (done ++ [scheduleOne done prev c])
          (scheduleOne done prev c) cs).getD (done.length + 0 - 1) d = prev := by
        have hlt : done.length + 0 - 1 < done.length := by omega
        rw [scheduleRest_getD_low cs (done ++ [scheduleOne done prev c])
          (scheduleOne done prev c) d (done.length + 0 - 1) (by simp; omega)]
        rw [getD_append_low done [scheduleOne done prev c] _ d hlt]
        simpa using getD_of_getLastQ done prev d hlast
      rw [htake, hprevval]
      simp
    | succ k =>
      have hcount : done.length + (k + 1) = (done ++ [scheduleOne done prev c]).length + k := by
        simp
        omega
      rw [hcount]
      have hstep := ih (done ++ [scheduleOne done prev c]) (scheduleOne done prev c) d k
        (by simp) (getLastQ_concat done (scheduleOne done prev c)) (by simpa using hk)
      rw [hstep]
      have harg : cs.getD k d = (c :: cs).getD (k + 1) d := by simp
      rw [harg]

/-- Length: the schedule has one entry per input instruction. -/
theorem scheduleList_length (insts : List Instruction) :
    (scheduleList insts).length = insts.length := by
  cases insts with
  | nil => rfl
  | cons c cs =>
    show (scheduleRest [schedFirst c] (schedFirst c) cs).length = _
    rw [scheduleRest_length]
    simp
    omega

/-- The first entry of the schedule is the baseline first instruction. -/
theorem scheduleList_head (c d : Instruction) (cs : List Instruction) :
    (scheduleList (c :: cs)).getD 0 d = schedFirst c := by
  show (scheduleRest [schedFirst c] (schedFirst c) cs).getD 0 d = _
  rw [scheduleRest_getD_low cs [schedFirst c] (schedFirst c) d 0 (by simp)]
  rfl

/-- Every later entry of the schedule is scheduleOne of the front before it,
the entry before it, and the corresponding input instruction. -/
theorem scheduleList_step (insts : List Instruction) (j : Nat) (d : Instruction)
    (hj : j + 1 < insts.length) :
    (scheduleList insts).getD (j + 1) d =
      scheduleOne ((scheduleList insts).take (j + 1))
        ((scheduleList insts).getD j d) (insts.getD (j + 1) d) := by
  cases insts with
  | nil => simp at hj
  | cons c cs =>
    show (scheduleRest [schedFirst c] (schedFirst c) cs).getD (j + 1) d = _
    have hlen : [schedFirst c].length = 1 := rfl
    have hstep := scheduleRest_step cs [schedFirst c] (schedFirst c) d j
      (by simp) (by rfl) (by simp at hj; omega)
    have hidx : (1 : Nat) + j = j + 1 := by omega
    rw [hlen, hidx] at hstep
    have hidx2 : j + 1 - 1 = j := by omega
    rw [hidx2] at hstep
    rw [hstep]
    have harg : cs.getD j d = (c :: cs).getD (j + 1) d := by simp
    rw [harg]
    rfl

/-- Every entry of the finalized schedule is well formed. -/
theorem scheduleList_wf (insts : List Instruction) (j : Nat) (d : Instruction)
    (hj : j < (scheduleList insts).length) : wfInst ((scheduleList insts).getD j d) := by
  cases j with
  | zero =>
    cases insts with
    | nil => simp [scheduleList] at hj
    | cons c cs =>
      rw [scheduleList_head c d cs]
      exact schedFirst_wf c
  | succ j =>
    rw [scheduleList_length] at hj
    rw [scheduleList_step insts j d hj]
    exact scheduleOne_wf _ _ _

/-- Fetch cycles advance by at least one between consecutive entries. -/
theorem scheduleList_if_succ (insts : List Instruction) (j : Nat) (d : Instruction)
    (hj : j + 1 < (scheduleList insts).length) :
    ((scheduleList insts).getD j d).ifCycle + 1 ≤
      ((scheduleList insts).getD (j + 1) d).ifCycle := by
  rw [scheduleList_length] at hj
  rw [scheduleList_step insts j d hj]
  obtain ⟨k, -, -, hid, hif, -, -, -⟩ :=
    scheduleOne_spec ((scheduleList insts).take (j + 1)) ((scheduleList insts).getD j d)
      (insts.getD (j + 1) d)
  have hge := findOkCycle_ge ((scheduleList insts).take (j + 1)) (insts.getD (j + 1) d)
    (((scheduleList insts).getD j d).ifCycle + 2)
  omega

/-- Write-back cycles never decrease between consecutive entries. -/
theorem scheduleList_wb_succ (insts : List Instruction) (j : Nat) (d : Instruction)
    (hj : j + 1 < (scheduleList insts).length) :
    ((scheduleList insts).getD j d).wbCycle ≤
      ((scheduleList insts).getD (j + 1) d).wbCycle := by
  have hwfp := scheduleList_wf insts j d (by omega)
  obtain ⟨hp1, hp2, hp3, hp4, hp5⟩ := hwfp
  rw [scheduleList_length] at hj
  rw [scheduleList_step insts j d hj]
  obtain ⟨k, -, -, hid, hif, hex, hmem, hwb⟩ :=
    scheduleOne_spec ((scheduleList insts).take (j + 1)) ((scheduleList insts).getD j d)
      (insts.getD (j + 1) d)
  have hge := findOkCycle_ge ((scheduleList insts).take (j + 1)) (insts.getD (j + 1) d)
    (((scheduleList insts).getD j d).ifCycle + 2)
  have h1 : ((scheduleList insts).getD j d).wbCycle ≤
      ((scheduleList insts).getD j d).ifCycle + 5 := by
    by_cases h : ((scheduleList insts).getD j d).type = IType.LOAD
    · rw [if_pos h] at hp5; omega
    · rw [if_neg h] at hp5; omega
  have h2 : 1 ≤ (if (insts.getD (j + 1) d).type = IType.LOAD then 2 else 1) := by
    by_cases h : (insts.getD (j + 1) d).type = IType.LOAD
    · rw [if_pos h]; omega
    · rw [if_neg h]
  omega

/-- Write-back cycles are monotone along the whole schedule. -/
theorem scheduleList_wb_mono (insts : List Instruction) (d : Instruction) (i j : Nat)
    (hij : i ≤ j) (hj : j < (scheduleList insts).length) :
    ((scheduleList insts).getD i d).wbCycle ≤ ((scheduleList insts).getD j d).wbCycle := by
  induction j with
  | zero =>
    have : i = 0 := by omega
    subst this
    exact Nat.le_refl _
  | succ j ih =>
    rcases Nat.eq_or_lt_of_le hij with h | h
    · subst h; exact Nat.le_refl _
    · exact Nat.le_trans (ih (by omega) (by omega)) (scheduleList_wb_succ insts j d hj)

/-- The running maximum of a fold over wb cycles only grows. -/
theorem foldl_wb_init (l : List Instruction) :
    ∀ init : Nat, init ≤ l.foldl (fun m i => max m i.wbCycle) init := by
  induction l with
  | nil => intro init; simp
  | cons x xs ih =>
    intro init
    simp only [List.foldl_cons]
    exact Nat.le_trans (Nat.le_max_left init x.wbCycle) (ih _)

/-- The fold over wb cycles dominates every member. -/
theorem foldl_wb_mem (l : List Instruction) (x : Instruction) (hx : x ∈ l) :
    ∀ init : Nat, x.wbCycle ≤ l.foldl (fun m i => max m i.wbCycle) init := by
  induction l with
  | nil => simp at hx
  | cons y ys ih =>
    intro init
    simp only [List.foldl_cons]
    rcases List.mem_cons.mp hx with h | h
    · subst h
      exact Nat.le_trans (Nat.le_max_right init x.wbCycle) (foldl_wb_init ys _)
    · exact ih h _

/-- The fold over wb cycles is below any bound dominating start and members. -/
theorem foldl_wb_le (l : List Instruction) :
    ∀ init B : Nat, (∀ x ∈ l, x.wbCycle ≤ B) → init ≤ B →
      l.foldl (fun m i => max m i.wbCycle) init ≤ B := by
  induction l with
  | nil => intro init B _ h; simpa using h
  | cons y ys ih =>
    intro init B hall hinit
    simp only [List.foldl_cons]
    exact ih _ B (fun x hx => hall x (List.mem_cons_of_mem y hx))
      (Nat.max_le.mpr ⟨hinit, hall y (List.mem_cons_self y ys)⟩)

/-- The register-read relation only looks at decoded fields, so scheduling
does not change it. -/
theorem regReadFrom_scheduleOne (done : List Instruction) (prev curr p : Instruction) :
    regReadFrom p (scheduleOne done prev curr) ↔ regReadFrom p curr := by
  obtain ⟨-, -, h3, h4, -, h6, h7, -⟩ := scheduleOne_fields done prev curr
  unfold regReadFrom
  rw [h3, h4, h6, h7]

/-- Being a memory operation is unchanged by scheduling. -/
theorem isMemOp_scheduleOne (done : List Instruction) (prev curr : Instruction) :
    isMemOp (scheduleOne done prev curr) ↔ isMemOp curr := by
  obtain ⟨hty, -⟩ := scheduleOne_fields done prev curr
  unfold isMemOp
  rw [hty]

/-- A nonempty list has a last element. -/
theorem getLastQ_isSome {α : Type} : ∀ (l : List α), l ≠ [] → ∃ x, l.getLast? = some x := by
  intro l
  induction l with
  | nil => intro h; exact absurd rfl h
  | cons a as ih =>
    intro _
    cases as with
    | nil => exact ⟨a, rfl⟩
    | cons b bs =>
      obtain ⟨x, hx⟩ := ih (by simp)
      refine ⟨x, ?_⟩
      simp only [List.getLast?] at hx ⊢
      exact hx

/-- C1: for every earlier producer p and later consumer c in the finalized
schedule, if c reads a register operand equal to p.destReg then c.ID stage is
strictly after the availability cycle of p (WB for a LOAD producer, MEM for
ADD/SUB); in the scenario LOAD R1,0 then ADD R2,R1,R3 the LOAD retires at
WB=6, the ADD decodes after cycle 6, and the total exceeds 9. -/
theorem claim1_raw_forwarding :
    (∀ (insts : List Instruction) (i j : Nat) (d : Instruction),
        i < j → j < (scheduleList insts).length →
        ((scheduleList insts).getD i d).destReg ≠ "" →
        regReadFrom ((scheduleList insts).getD i d) ((scheduleList insts).getD j d) →
        dataAvailableCycle ((scheduleList insts).getD i d) <
          ((scheduleList insts).getD j d).idCycle) ∧
    ((scheduleList (decodeLines exProg)).getD 0 default).wbCycle = 6 ∧
    6 < ((scheduleList (decodeLines exProg)).getD 1 default).idCycle ∧
    9 < simulate (decodeLines exProg) := by
  constructor
  · intro insts i j d hij hj hdest hread
    obtain ⟨jj, rfl⟩ : ∃ jj, j = jj + 1 := ⟨j - 1, by omega⟩
    rw [scheduleList_length] at hj
    have hstep := scheduleList_step insts jj d hj
    rw [hstep] at hread ⊢
    have hread2 : regReadFrom ((scheduleList insts).getD i d) (insts.getD (jj + 1) d) :=
      (regReadFrom_scheduleOne _ _ _ _).mp hread
    have hok := findOkCycle_ok ((scheduleList insts).take (jj + 1)) (insts.getD (jj + 1) d)
      (((scheduleList insts).getD jj d).ifCycle + 2)
    have hp : (scheduleList insts).getD i d ∈ (scheduleList insts).take (jj + 1) := by
      have heq : ((scheduleList insts).take (jj + 1)).getD i d =
          (scheduleList insts).getD i d := take_getD _ _ _ d hij
      rw [← heq]
      apply getD_mem
      rw [List.length_take]
      refine Nat.lt_min.mpr ⟨hij, ?_⟩
      rw [scheduleList_length]
      omega
    have hnb := hok _ hp
    have hlt : dataAvailableCycle ((scheduleList insts).getD i d) <
        findOkCycle ((scheduleList insts).take (jj + 1)) (insts.getD (jj + 1) d)
          (((scheduleList insts).getD jj d).ifCycle + 2) := by
      by_contra hge
      exact hnb (Or.inl ⟨hdest, hread2, by omega⟩)
    obtain ⟨k, -, -, hid, -, -, -, -⟩ :=
      scheduleOne_spec ((scheduleList insts).take (jj + 1)) ((scheduleList insts).getD jj d)
        (insts.getD (jj + 1) d)
    omega
  · refine ⟨by decide, by decide, by decide⟩

/-- C1 witness: the scenario program instantiates the universal statement. -/
theorem claim1_raw_forwarding_witness :
    dataAvailableCycle ((scheduleList (decodeLines exProg)).getD 0 default) <
      ((scheduleList (decodeLines exProg)).getD 1 default).idCycle :=
  claim1_raw_forwarding.1 (decodeLines exProg) 0 1 default (by decide) (by decide)
    (by decide) (by decide)

/-- C2: the first instruction of any nonempty program is scheduled at IF=1,
ID=2, EX=3, MEM=4 and WB=6 for LOAD, 5 for ADD/SUB/STORE; a lone LOAD R1,0
yields 6 total cycles. -/
theorem claim2_first_instruction (i0 d : Instruction) (rest : List Instruction) :
    ((scheduleList (i0 :: rest)).getD 0 d).ifCycle = 1 ∧
    ((scheduleList (i0 :: rest)).getD 0 d).idCycle = 2 ∧
    ((scheduleList (i0 :: rest)).getD 0 d).exCycle = 3 ∧
    ((scheduleList (i0 :: rest)).getD 0 d).memCycle = 4 ∧
    ((scheduleList (i0 :: rest)).getD 0 d).wbCycle = (if i0.type = IType.LOAD then 6 else 5) ∧
    simulate (decodeLines ["LOAD R1, 0"]) = 6 := by
  rw [scheduleList_head i0 d rest]
  obtain ⟨-, -, -, -, -, -, -, -, h1, h2, h3, h4, h5⟩ := schedFirst_spec i0
  exact ⟨h1, h2, h3, h4, h5, by decide⟩

/-- C3: two consecutive memory operations have MEM stages at least two cycles
apart in the finalized schedule. -/
theorem claim3_memory_spacing (insts : List Instruction) (j : Nat) (d : Instruction)
    (hj : j + 1 < (scheduleList insts).length)
    (h1 : isMemOp ((scheduleList insts).getD j d))
    (h2 : isMemOp ((scheduleList insts).getD (j + 1) d)) :
    ((scheduleList insts).getD j d).memCycle + 2 ≤
      ((scheduleList insts).getD (j + 1) d).memCycle := by
  obtain ⟨hp1, hp2, hp3, hp4, -⟩ := scheduleList_wf insts j d (by omega)
  rw [scheduleList_length] at hj
  rw [scheduleList_step insts j d hj] at h2 ⊢
  have h2c : isMemOp (insts.getD (j + 1) d) := (isMemOp_scheduleOne _ _ _).mp h2
  obtain ⟨k, hk1, -, hid, -, -, hmem, -⟩ :=
    scheduleOne_spec ((scheduleList insts).take (j + 1)) ((scheduleList insts).getD j d)
      (insts.getD (j + 1) d)
  have hpen : memPenalty ((scheduleList insts).getD j d) (insts.getD (j + 1) d) := ⟨h2c, h1⟩
  have hk := hk1 hpen
  have hge := findOkCycle_ge ((scheduleList insts).take (j + 1)) (insts.getD (j + 1) d)
    (((scheduleList insts).getD j d).ifCycle + 2)
  omega

/-- C3 witness: two loads from distinct locations. -/
theorem claim3_memory_spacing_witness :
    ((scheduleList [exLoadA, exLoadB]).getD 0 default).memCycle + 2 ≤
      ((scheduleList [exLoadA, exLoadB]).getD 1 default).memCycle :=
  claim3_memory_spacing [exLoadA, exLoadB] 0 default (by decide) (by decide) (by decide)

/-- C4: every finalized instruction has strictly increasing stage cycles, and
the MEM-to-WB distance is 1 for ADD/SUB/STORE and 2 exactly for LOAD. -/
theorem claim4_stage_order (insts : List Instruction) (j : Nat) (d : Instruction)
    (hj : j < (scheduleList insts).length) :
    ((scheduleList insts).getD j d).ifCycle < ((scheduleList insts).getD j d).idCycle ∧
    ((scheduleList insts).getD j d).idCycle < ((scheduleList insts).getD j d).exCycle ∧
    ((scheduleList insts).getD j d).exCycle < ((scheduleList insts).getD j d).memCycle ∧
    ((scheduleList insts).getD j d).memCycle < ((scheduleList insts).getD j d).wbCycle ∧
    (((scheduleList insts).getD j d).type ≠ IType.LOAD →
      ((scheduleList insts).getD j d).wbCycle = ((scheduleList insts).getD j d).memCycle + 1) ∧
    (((scheduleList insts).getD j d).wbCycle = ((scheduleList insts).getD j d).memCycle + 1 ∨
      ((scheduleList insts).getD j d).wbCycle = ((scheduleList insts).getD j d).memCycle + 2) ∧
    (((scheduleList insts).getD j d).wbCycle = ((scheduleList insts).getD j d).memCycle + 2 →
      ((scheduleList insts).getD j d).type = IType.LOAD) := by
  obtain ⟨hp1, hp2, hp3, hp4, hp5⟩ := scheduleList_wf insts j d hj
  by_cases h : ((scheduleList insts).getD j d).type = IType.LOAD
  · rw [if_pos h] at hp5
    exact ⟨by omega, by omega, by omega, by omega, fun hn => absurd h hn,
      Or.inr (by omega), fun _ => h⟩
  · rw [if_neg h] at hp5
    exact ⟨by omega, by omega, by omega, by omega, fun _ => by omega,
      Or.inl (by omega), fun hw => (by omega : False).elim⟩

/-- C4 witness: a lone load. -/
theorem claim4_stage_order_witness :
    ((scheduleList [exLoadA]).getD 0 default).memCycle <
      ((scheduleList [exLoadA]).getD 0 default).wbCycle :=
  (claim4_stage_order [exLoadA] 0 default (by decide)).2.2.2.1

/-- C5: program order is preserved - both IF and ID advance by at least one
cycle between consecutive finalized instructions. -/
theorem claim5_no_overtaking (insts : List Instruction) (j : Nat) (d : Instruction)
    (hj : j + 1 < (scheduleList insts).length) :
    ((scheduleList insts).getD j d).ifCycle + 1 ≤
      ((scheduleList insts).getD (j + 1) d).ifCycle ∧
    ((scheduleList insts).getD j d).idCycle + 1 ≤
      ((scheduleList insts).getD (j + 1) d).idCycle := by
  have hif := scheduleList_if_succ insts j d hj
  obtain ⟨-, hp2, -, -, -⟩ := scheduleList_wf insts j d (by omega)
  obtain ⟨-, hq2, -, -, -⟩ := scheduleList_wf insts (j + 1) d hj
  exact ⟨hif, by omega⟩

/-- C5 witness: two independent adds. -/
theorem claim5_no_overtaking_witness :
    ((scheduleList [exAdd1, exAdd2]).getD 0 default).idCycle + 1 ≤
      ((scheduleList [exAdd1, exAdd2]).getD 1 default).idCycle :=
  (claim5_no_overtaking [exAdd1, exAdd2] 0 default (by decide)).2

/-- C6 counterexample: in the scenario program the dependent ADD is stalled,
so its finalized IF is 6, not the predecessors IF plus one. -/
theorem claim6_counterexample :
    ((scheduleList (decodeLines exProg)).getD 1 default).ifCycle ≠
      ((scheduleList (decodeLines exProg)).getD 0 default).ifCycle + 1 := by decide

/-- C6 amended: the baseline IF of instruction i is exactly IF[i-1]+1, and the
finalized IF equals it whenever the hazard checks pass at the baseline ID and
neither fixed penalty applies; stalls and penalties can push IF further. -/
theorem claim6_fetch_unit_step (insts : List Instruction) (j : Nat) (d : Instruction)
    (hj : j + 1 < (scheduleList insts).length)
    (hok : checkDependencies ((scheduleList insts).take (j + 1)) (insts.getD (j + 1) d)
      (((scheduleList insts).getD j d).ifCycle + 2))
    (hmem : ¬ memPenalty ((scheduleList insts).getD j d) (insts.getD (j + 1) d))
    (halu : ¬ aluPenalty ((scheduleList insts).getD j d) (insts.getD (j + 1) d)) :
    ((scheduleList insts).getD (j + 1) d).ifCycle =
      ((scheduleList insts).getD j d).ifCycle + 1 := by
  rw [scheduleList_length] at hj
  rw [scheduleList_step insts j d hj]
  obtain ⟨k, -, hk0, hid, hif, -, -, -⟩ :=
    scheduleOne_spec ((scheduleList insts).take (j + 1)) ((scheduleList insts).getD j d)
      (insts.getD (j + 1) d)
  have hfix := findOkCycle_of_ok ((scheduleList insts).take (j + 1)) (insts.getD (j + 1) d)
    (((scheduleList insts).getD j d).ifCycle + 2) hok
  have hk := hk0 hmem halu
  omega

/-- C6 amended witness: two independent adds fetch back to back. -/
theorem claim6_fetch_unit_step_witness :
    ((scheduleList [exAdd1, exAdd2]).getD 1 default).ifCycle =
      ((scheduleList [exAdd1, exAdd2]).getD 0 default).ifCycle + 1 :=
  claim6_fetch_unit_step [exAdd1, exAdd2] 0 default (by decide) (by decide) (by decide)
    (by decide)

/-- C7 counterexample: for LOAD R1,A then LOAD R2,B the second load has its
finalized ID pushed one past the baseline by the memory penalty, yet its
stalled flag is false. -/
theorem claim7_counterexample :
    ((scheduleList [exLoadA, exLoadB]).getD 1 default).stalled = false ∧
    ((scheduleList [exLoadA, exLoadB]).getD 0 default).idCycle + 1 <
      ((scheduleList [exLoadA, exLoadB]).getD 1 default).idCycle := by decide

/-- C7 amended: for decoded programs (stall flags initially false) the flag of
a scheduled instruction is true exactly when the hazard-check loop ran, i.e.
when the checks fail at the baseline ID cycle (one past the predecessors ID);
the fixed penalties shift ID without setting the flag, and the first
instruction is never flagged. -/
theorem claim7_stalled_iff_loop (insts : List Instruction) (j : Nat) (d : Instruction)
    (hstall0 : ∀ c ∈ insts, c.stalled = false)
    (hj : j < (scheduleList insts).length) :
    (j = 0 → ((scheduleList insts).getD j d).stalled = false) ∧
    (0 < j →
      (((scheduleList insts).getD j d).stalled = true ↔
        ¬ checkDependencies ((scheduleList insts).take j) (insts.getD j d)
          (((scheduleList insts).getD (j - 1) d).idCycle + 1))) := by
  constructor
  · intro hj0
    subst hj0
    cases insts with
    | nil => simp [scheduleList] at hj
    | cons c cs =>
      rw [scheduleList_head c d cs]
      obtain ⟨-, -, -, -, -, -, -, hst, -⟩ := schedFirst_spec c
      rw [hst]
      exact hstall0 c (List.mem_cons_self c cs)
  · intro hpos
    obtain ⟨jj, rfl⟩ : ∃ jj, j = jj + 1 := ⟨j - 1, by omega⟩
    rw [scheduleList_length] at hj
    rw [scheduleList_step insts jj d hj]
    obtain ⟨-, -, -, -, -, -, -, hst⟩ :=
      scheduleOne_fields ((scheduleList insts).take (jj + 1)) ((scheduleList insts).getD jj d)
        (insts.getD (jj + 1) d)
    rw [hst]
    have hcurr : (insts.getD (jj + 1) d).stalled = false :=
      hstall0 _ (getD_mem insts (jj + 1) d hj)
    rw [hcurr]
    obtain ⟨-, hp2, -, -, -⟩ := scheduleList_wf insts jj d (by rw [scheduleList_length]; omega)
    have hbase : ((scheduleList insts).getD (jj + 1 - 1) d).idCycle + 1 =
        ((scheduleList insts).getD jj d).ifCycle + 2 := by
      simp only [Nat.add_sub_cancel]
      omega
    rw [hbase]
    simp only [Bool.false_or, decide_eq_true_eq]
    exact findOkCycle_ne_iff ((scheduleList insts).take (jj + 1)) (insts.getD (jj + 1) d)
      (((scheduleList insts).getD jj d).ifCycle + 2)

/-- C7 amended witness: the second of two independent loads is unflagged even
though the memory penalty moved its ID, because the loop never ran. -/
theorem claim7_stalled_iff_loop_witness :
    ((scheduleList [exLoadA, exLoadB]).getD 1 default).stalled = false := by
  have h := (claim7_stalled_iff_loop [exLoadA, exLoadB] 1 default (by decide) (by decide)).2
    (by decide)
  have hc : checkDependencies ((scheduleList [exLoadA, exLoadB]).take 1)
      ([exLoadA, exLoadB].getD 1 default)
      ((((scheduleList [exLoadA, exLoadB]).getD (1 - 1) default)).idCycle + 1) := by decide
  cases hb : ((scheduleList [exLoadA, exLoadB]).getD 1 default).stalled
  · rfl
  · exact absurd hc (h.mp hb)

/-- C8: simulate returns 0 on the empty program, and on a nonempty program it
returns the last instructions WB cycle, which dominates every WB cycle in the
schedule (WB is monotone along program order). -/
theorem claim8_total_cycles (insts : List Instruction) (d : Instruction) :
    simulate ([] : List Instruction) = 0 ∧
    (insts ≠ [] →
      simulate insts = (((scheduleList insts).getLast?).getD d).wbCycle ∧
      ∀ j, j < (scheduleList insts).length →
        ((scheduleList insts).getD j d).wbCycle ≤ simulate insts) := by
  refine ⟨rfl, fun hne => ?_⟩
  have hlen0 : 0 < (scheduleList insts).length := by
    rw [scheduleList_length]
    cases insts with
    | nil => exact absurd rfl hne
    | cons c cs => simp
  have hLne : scheduleList insts ≠ [] := by
    intro h
    rw [h] at hlen0
    simp at hlen0
  obtain ⟨x, hx⟩ := getLastQ_isSome (scheduleList insts) hLne
  have hxval : (scheduleList insts).getD ((scheduleList insts).length - 1) d = x :=
    getD_of_getLastQ (scheduleList insts) x d hx
  have hxmem : x ∈ scheduleList insts := by
    rw [← hxval]
    exact getD_mem _ _ _ (by omega)
  have hbound : ∀ y ∈ scheduleList insts, y.wbCycle ≤ x.wbCycle := by
    intro y hy
    obtain ⟨jy, hjy, hgety⟩ := mem_getD (scheduleList insts) y hy
    rw [← hgety d, ← hxval]
    exact scheduleList_wb_mono insts d jy ((scheduleList insts).length - 1)
      (by omega) (by omega)
  have hle : simulate insts ≤ x.wbCycle :=
    foldl_wb_le (scheduleList insts) 0 x.wbCycle hbound (Nat.zero_le _)
  have hge : x.wbCycle ≤ simulate insts := foldl_wb_mem (scheduleList insts) x hxmem 0
  have hsim : simulate insts = x.wbCycle := Nat.le_antisymm hle hge
  rw [hx]
  refine ⟨hsim, fun j hjlt => ?_⟩
  rw [hsim] at *
  exact Nat.le_trans (hbound _ (getD_mem _ _ _ hjlt)) (Nat.le_refl _)

/-- C8 witness: a one-load program. -/
theorem claim8_total_cycles_witness :
    simulate [exLoadA] = (((scheduleList [exLoadA]).getLast?).getD default).wbCycle :=
  ((claim8_total_cycles [exLoadA] default).2 (by decide)).1

/-- C9: the stall loop always exits, at a cycle at or after its start that
passes every hazard check against every earlier instruction, and the scheduler
produces a complete schedule (one entry per instruction) for every finite
list, including the empty one. -/
theorem claim9_scheduler_total (done : List Instruction) (curr : Instruction)
    (cycle : Nat) (insts : List Instruction) :
    cycle ≤ findOkCycle done curr cycle ∧
    checkDependencies done curr (findOkCycle done curr cycle) ∧
    (scheduleList insts).length = insts.length :=
  ⟨findOkCycle_ge done curr cycle, findOkCycle_ok done curr cycle, scheduleList_length insts⟩

/-- The opcode token of a line: its first whitespace-delimited token after the
one-comma strip the tokenizer applies (this is what the parsers test). -/
def opcodeHead (s : String) : Option (List Char) := ((tokenize s.data).head?).map popComma

/-- Every character the trim set recognizes is also a stream delimiter. -/
theorem isStreamWS_of_isWS (c : Char) (h : isWS c = true) : isStreamWS c = true := by
  simp only [isWS, Bool.or_eq_true, decide_eq_true_eq] at h
  simp only [isStreamWS, Bool.or_eq_true, decide_eq_true_eq]
  tauto

/-- Tokenizing an all-whitespace tail only flushes the accumulator. -/
theorem tokenizeAux_allWS : ∀ (z : List Char), (∀ c ∈ z, isStreamWS c = true) →
    ∀ acc, tokenizeAux z acc = if acc = [] then [] else [acc.reverse] := by
  intro z
  induction z with
  | nil => intro _ acc; rfl
  | cons c zs ih =>
    intro hz acc
    have hc : isStreamWS c = true := hz c (List.mem_cons_self c zs)
    have hz2 : ∀ x ∈ zs, isStreamWS x = true := fun x hx => hz x (List.mem_cons_of_mem c hx)
    by_cases ha : acc = [] <;> simp [tokenizeAux, hc, ha, ih hz2]

/-- Appending trailing whitespace does not change tokenization. -/
theorem tokenizeAux_append_ws (y z : List Char) (hz : ∀ c ∈ z, isStreamWS c = true) :
    ∀ acc, tokenizeAux (y ++ z) acc = tokenizeAux y acc := by
  induction y with
  | nil =>
    intro acc
    rw [List.nil_append, tokenizeAux_allWS z hz acc]
    rfl
  | cons c ys ih =>
    intro acc
    by_cases hw : isWS c <;> by_cases ha : acc = [] <;>
      simp [tokenizeAux, hw, ha, ih]

/-- Members of a takeWhile with the whitespace test are whitespace. -/
theorem mem_takeWhile_ws : ∀ (l : List Char) (c : Char), c ∈ l.takeWhile isWS →
    isWS c = true := by
  intro l
  induction l with
  | nil => intro c hc; simp [List.takeWhile] at hc
  | cons a as ih =>
    intro c hc
    by_cases ha : isWS a
    · rw [List.takeWhile_cons_of_pos ha] at hc
      rcases List.mem_cons.mp hc with h | h
      · rw [h]; exact ha
      · exact ih c h
    · rw [List.takeWhile_cons_of_neg ha] at hc
      simp at hc

/-- Left-trimmed input splits as the fully trimmed core plus whitespace. -/
theorem trimChars_decomp (cs : List Char) :
    ∃ z, (∀ c ∈ z, isWS c = true) ∧ cs.dropWhile isWS = trimChars cs ++ z := by
  refine ⟨((cs.dropWhile isWS).reverse.takeWhile isWS).reverse, ?_, ?_⟩
  · intro c hc
    rw [List.mem_reverse] at hc
    exact mem_takeWhile_ws _ c hc
  · calc cs.dropWhile isWS
        = ((cs.dropWhile isWS).reverse).reverse := (List.reverse_reverse _).symm
      _ = ((cs.dropWhile isWS).reverse.takeWhile isWS ++
            (cs.dropWhile isWS).reverse.dropWhile isWS).reverse := by
          rw [List.takeWhile_append_dropWhile]
      _ = ((cs.dropWhile isWS).reverse.dropWhile isWS).reverse ++
            ((cs.dropWhile isWS).reverse.takeWhile isWS).reverse := by
          rw [List.reverse_append]
      _ = trimChars cs ++ ((cs.dropWhile isWS).reverse.takeWhile isWS).reverse := rfl

/-- Dropping the leading trim whitespace does not change tokenization, since
every trimmed character is also a stream delimiter the tokenizer skips. -/
theorem tokenizeAux_dropWhile (cs : List Char) :
    tokenizeAux (cs.dropWhile isWS) [] = tokenizeAux cs [] := by
  induction cs with
  | nil => rfl
  | cons c rest ih =>
    by_cases hw : isWS c
    · simp [List.dropWhile, tokenizeAux, hw, isStreamWS_of_isWS c hw, ih]
    · simp [List.dropWhile, tokenizeAux, hw, ih]

/-- Trimming does not change tokenization - the key bridge between the line
fed to addInstruction and the re-trimmed input the two parsers use. -/
theorem tokenize_trimChars (cs : List Char) : tokenize (trimChars cs) = tokenize cs := by
  obtain ⟨z, hz, hdecomp⟩ := trimChars_decomp cs
  have hzs : ∀ c ∈ z, isStreamWS c = true := fun c hc => isStreamWS_of_isWS c (hz c hc)
  unfold tokenize
  calc tokenizeAux (trimChars cs) []
      = tokenizeAux (trimChars cs ++ z) [] := (tokenizeAux_append_ws _ z hzs []).symm
    _ = tokenizeAux (cs.dropWhile isWS) [] := by rw [← hdecomp]
    _ = tokenizeAux cs [] := tokenizeAux_dropWhile cs

/-- A successful character search splits the list at the found index. -/
theorem findCharFrom_decomp (target : Char) :
    ∀ (cs : List Char) (n : Nat), findCharFrom cs target = some n →
      cs = cs.take n ++ target :: cs.drop (n + 1) := by
  intro cs
  induction cs with
  | nil => intro n h; simp [findCharFrom] at h
  | cons c rest ih =>
    intro n h
    unfold findCharFrom at h
    by_cases hc : c = target
    · rw [if_pos hc] at h
      have hn : n = 0 := by
        have := Option.some.inj h
        omega
      subst hn
      simp [hc]
    · rw [if_neg hc] at h
      cases hfind : findCharFrom rest target with
      | none => rw [hfind] at h; simp at h
      | some m =>
        rw [hfind] at h
        simp only [Option.map_some'] at h
        have hn : n = m + 1 := (Option.some.inj h).symm
        subst hn
        have hrest := ih m hfind
        calc c :: rest
            = c :: (rest.take m ++ target :: rest.drop (m + 1)) := by rw [← hrest]
          _ = (c :: rest).take (m + 1) ++ target :: (c :: rest).drop (m + 2) := by
              simp

/-- Tokenizing a list that starts with the LOAD mnemonic and a space yields
the mnemonic as first token. -/
theorem tokenize_load_head (rest : List Char) :
    tokenize (("LOAD").data ++ ' ' :: rest) = ("LOAD").data :: tokenizeAux rest [] := rfl

/-- Tokenizing a list that starts with the STORE mnemonic and a space yields
the mnemonic as first token. -/
theorem tokenize_store_head (rest : List Char) :
    tokenize (("STORE").data ++ ' ' :: rest) = ("STORE").data :: tokenizeAux rest [] := rfl

/-- parseLoadStore rejects any line whose opcode token is neither LOAD nor
STORE. -/
theorem parseLoadStore_none (s : String)
    (h1 : opcodeHead s ≠ some (("LOAD").data))
    (h2 : opcodeHead s ≠ some (("STORE").data)) :
    parseLoadStore s = none := by
  unfold parseLoadStore
  by_cases ht : trimChars s.data = []
  · rw [if_pos ht]
  · rw [if_neg ht]
    cases hfind : findCharFrom (trimChars s.data) ' ' with
    | none => rfl
    | some typeEnd =>
      dsimp only
      have hsplit := findCharFrom_decomp ' ' (trimChars s.data) typeEnd hfind
      have hcond : (trimChars s.data).take typeEnd ≠ ("LOAD").data ∧
          (trimChars s.data).take typeEnd ≠ ("STORE").data := by
        constructor
        · intro hty
          apply h1
          unfold opcodeHead
          rw [← tokenize_trimChars s.data]
          rw [show trimChars s.data =
            (trimChars s.data).take typeEnd ++ ' ' :: (trimChars s.data).drop (typeEnd + 1)
            from hsplit]
          rw [hty, tokenize_load_head]
          rfl
        · intro hty
          apply h2
          unfold opcodeHead
          rw [← tokenize_trimChars s.data]
          rw [show trimChars s.data =
            (trimChars s.data).take typeEnd ++ ' ' :: (trimChars s.data).drop (typeEnd + 1)
            from hsplit]
          rw [hty, tokenize_store_head]
          rfl
      rw [if_pos hcond]

/-- parseAddSub rejects any line whose opcode token is neither ADD nor SUB. -/
theorem parseAddSub_none (s : String)
    (h3 : opcodeHead s ≠ some (("ADD").data))
    (h4 : opcodeHead s ≠ some (("SUB").data)) :
    parseAddSub s = none := by
  unfold parseAddSub
  by_cases ht : trimChars s.data = []
  · rw [if_pos ht]
  · rw [if_neg ht]
    cases htok : tokenize (trimChars s.data) with
    | nil => rfl
    | cons tok0 toks =>
      dsimp only
      have hhead : opcodeHead s = some (popComma tok0) := by
        unfold opcodeHead
        rw [← tokenize_trimChars s.data, htok]
        rfl
      have hne : ((tok0 :: toks).map popComma).getD 0 [] ≠ ("ADD").data ∧
          ((tok0 :: toks).map popComma).getD 0 [] ≠ ("SUB").data := by
        constructor
        · intro h
          apply h3
          rw [hhead]
          simp only [List.map_cons, List.getD_cons_zero] at h
          rw [h]
        · intro h
          apply h4
          rw [hhead]
          simp only [List.map_cons, List.getD_cons_zero] at h
          rw [h]
      by_cases hlen : ((tok0 :: toks).map popComma).length < 4
      · rw [if_pos hlen]
      · rw [if_neg hlen]
        rw [if_pos hne]

/-- Relating the opcode token of the pre-trimmed line addInstruction hands to
the parsers with the opcode token of the raw line. -/
theorem opcodeHead_trim (line : String) :
    opcodeHead ⟨trimChars line.data⟩ = opcodeHead line := by
  unfold opcodeHead
  rw [show (⟨trimChars line.data⟩ : String).data = trimChars line.data from rfl,
    tokenize_trimChars]

/-- addInstruction leaves the list unchanged on any line whose opcode token is
not one of the four mnemonics. -/
theorem addInstruction_skip (insts : List Instruction) (line : String)
    (h1 : opcodeHead line ≠ some (("LOAD").data))
    (h2 : opcodeHead line ≠ some (("STORE").data))
    (h3 : opcodeHead line ≠ some (("ADD").data))
    (h4 : opcodeHead line ≠ some (("SUB").data)) :
    addInstruction insts line = insts := by
  unfold addInstruction
  by_cases ht : trimChars line.data = []
  · rw [if_pos ht]
  · rw [if_neg ht]
    rw [parseLoadStore_none ⟨trimChars line.data⟩
      (by rw [opcodeHead_trim]; exact h1) (by rw [opcodeHead_trim]; exact h2)]
    rw [parseAddSub_none ⟨trimChars line.data⟩
      (by rw [opcodeHead_trim]; exact h3) (by rw [opcodeHead_trim]; exact h4)]

/-- C10 counterexample: a five-token ADD line has the wrong operand shape for
its opcode (ADD takes a destination and exactly two sources), yet the decoder
accepts it and appends an instruction instead of dropping the line. -/
theorem claim10_counterexample :
    (tokenize (trimChars ("ADD R1, R2, R3, R4").data)).length = 5 ∧
    (addInstruction [] "ADD R1, R2, R3, R4").length = 1 := by decide

/-- C10 amended: a line whose opcode token (its first stream-whitespace
delimited token after the one-comma strip) is not LOAD, STORE, ADD or SUB is
dropped without adding an instruction, decoding continues with the remaining
lines, and the decoded list - hence the final cycle count - reflects only the
other lines; a line with a recognized opcode token but the wrong operand
shape is not always dropped (the counterexample: a five-token ADD is
accepted with the surplus ignored). -/
theorem claim10_unknown_opcode_dropped (insts : List Instruction) (line : String)
    (pre post : List String)
    (hbad : opcodeHead line ∉
      [some (("LOAD").data), some (("STORE").data), some (("ADD").data),
        some (("SUB").data)]) :
    addInstruction insts line = insts ∧
    decodeLines (pre ++ line :: post) = decodeLines (pre ++ post) := by
  simp only [List.mem_cons, List.mem_singleton, not_or] at hbad
  obtain ⟨h1, h2, h3, h4⟩ := hbad
  have hskip : ∀ acc, addInstruction acc line = acc := fun acc =>
    addInstruction_skip acc line h1 h2 h3 (by simpa using h4)
  refine ⟨hskip insts, ?_⟩
  unfold decodeLines
  rw [List.foldl_append, List.foldl_append, List.foldl_cons, hskip]

/-- C10 amended witness: an unknown MUL mnemonic between decoded lines is
skipped and the decode result matches the program without it. -/
theorem claim10_unknown_opcode_dropped_witness :
    decodeLines (["LOAD R1, 0"] ++ "MUL R1, R2, R3" :: []) =
      decodeLines (["LOAD R1, 0"] ++ []) :=
  (claim10_unknown_opcode_dropped [] "MUL R1, R2, R3" ["LOAD R1, 0"] [] (by decide)).2

end PipelineSim
